import Mathlib

/-!
Shallow embedding of the version-decision core of the release-tag-commit
action (src/index.ts).  Strings are modelled as Lean `String`/`List Char`,
JS numbers as `Nat` (the version components are small non-negative
integers; JS float overflow is out of scope for these claims), and the
regular expressions of the source are modelled as character-level matchers
that follow the (deterministic) matching behaviour of each regex.
-/

namespace ReleaseTag

/-- JS whitespace class `\s` (ASCII fragment; all inputs considered here are
ASCII).  Used by `String.prototype.trim` and the `\s` atoms of the regexes. -/
def jsIsSpace (c : Char) : Bool :=
  c.toNat = 32 || c.toNat = 9 || c.toNat = 10 || c.toNat = 13 ||
  c.toNat = 11 || c.toNat = 12

/-- The regex class `\d`, i.e. exactly the ASCII digits. -/
def isDigitC (c : Char) : Bool :=
  48 ≤ c.toNat && c.toNat ≤ 57

/-- The regex class `[a-z]` (the classifier lowercases its input first). -/
def isLowerAlpha (c : Char) : Bool :=
  97 ≤ c.toNat && c.toNat ≤ 122

/-- `String.prototype.trim`: strip whitespace from both ends. -/
def jsTrim (cs : List Char) : List Char :=
  ((cs.dropWhile jsIsSpace).reverse.dropWhile jsIsSpace).reverse

/-- Value of a string of decimal digits, as computed by JS `Number` on the
captured groups of the tag regex (leading zeros allowed). -/
def decDigits (ds : List Char) : Nat :=
  ds.foldl (fun n c => 10 * n + (c.toNat - 48)) 0

/-- Decimal rendering helper (fuel-structured so it computes by `decide`). -/
def natToDigitsAux : Nat → Nat → List Char → List Char
  | 0, _, acc => acc
  | fuel + 1, n, acc =>
    if n < 10 then Char.ofNat (48 + n) :: acc
    else natToDigitsAux fuel (n / 10) (Char.ofNat (48 + n % 10) :: acc)

/-- Decimal digits of `n`, most significant first: the JS rendering
`${n}` of a non-negative integer. -/
def natToDigits (n : Nat) : List Char :=
  natToDigitsAux (n + 1) n []

/-- The optional `v` of `^(?:v)?` in the tag regex. -/
def stripV : List Char → List Char
  | c :: rest => if c = 'v' then rest else c :: rest
  | [] => []

/-- One `\d+` group: a non-empty maximal digit run, returning its numeric
value and the remaining characters. -/
def parseDigits (cs : List Char) : Option (Nat × List Char) :=
  if cs.takeWhile isDigitC = [] then none
  else some (decDigits (cs.takeWhile isDigitC), cs.dropWhile isDigitC)

/-- A literal `\.` in the tag regex. -/
def expectDot : List Char → Option (List Char)
  | c :: rest => if c = '.' then some rest else none
  | [] => none

/-- Matches `(\d+)\.(\d+)\.(\d+)$` against the characters after the
optional leading `v`. -/
def parseTagChars (cs : List Char) : Option (List Nat) :=
  (parseDigits cs).bind fun p1 =>
  (expectDot p1.2).bind fun r2 =>
  (parseDigits r2).bind fun p2 =>
  (expectDot p2.2).bind fun r4 =>
  (parseDigits r4).bind fun p3 =>
  if p3.2 = [] then some [p1.1, p2.1, p3.1] else none

/-- `parseTagFromName` (src/index.ts:5): trim, match
`^(?:v)?(\d+)\.(\d+)\.(\d+)$`, return the three numbers or null. -/
def parseTagFromName (tagName : String) : Option (List Nat) :=
  parseTagChars (stripV (jsTrim tagName.data))

/-- One iteration of the comparison loop of `compareTags`: JS `tag[i]` is
`undefined` past the end of the array (modelled by `none`), and both
`undefined > x` and `undefined < x` are false. -/
def jsCompareAt (v o : Option Nat) : Option Int :=
  match v, o with
  | some a, some b =>
    if a > b then some 1 else if a < b then some (-1) else none
  | _, _ => none

/-- `compareTags` (src/index.ts:12): compare the first three positions in
order, short-circuiting on the first difference, else 0. -/
def compareTags (tag tagOther : List Nat) : Int :=
  match jsCompareAt tag[0]? tagOther[0]? with
  | some r => r
  | none =>
    match jsCompareAt tag[1]? tagOther[1]? with
    | some r => r
    | none =>
      match jsCompareAt tag[2]? tagOther[2]? with
      | some r => r
      | none => 0

/-- `text.toLowerCase()` (ASCII behaviour of `Char.toLower`; all claim
inputs are ASCII). -/
def toLowerChars (cs : List Char) : List Char :=
  cs.map Char.toLower

/-- `text.split(/\r?\n/, 1)[0]`: the characters before the first line
terminator (`\n`, with an immediately preceding `\r` consumed as part of
the separator).  A lone `\r` is not a separator. -/
def headerOf : List Char → List Char
  | [] => []
  | '\r' :: '\n' :: _ => []
  | '\n' :: _ => []
  | c :: rest => c :: headerOf rest

/-- The optional scope group `(?:\([^)]+\))?` when it is followed by a
character that can never open it (`!` or `:`): if a `(` is present the
group must match (a non-empty run of non-`)` characters closed by `)`),
otherwise the input is left unchanged.  `none` means the whole regex
fails, which is faithful because on failure the regex engine retries
without the group and then immediately needs `!` or `:` where it sees `(`. -/
def dropScope : List Char → Option (List Char)
  | '(' :: r =>
    if r.takeWhile (fun c => !(c = ')')) = [] then none
    else
      match r.dropWhile (fun c => !(c = ')')) with
      | ')' :: r2 => some r2
      | _ => none
  | cs => some cs

/-- The tail `!:\s` of the breaking-change header regex. -/
def bangColonSpace : List Char → Bool
  | '!' :: ':' :: c :: _ => jsIsSpace c
  | _ => false

/-- The tail `:\s` of the feat/fix header regexes. -/
def colonSpace : List Char → Bool
  | ':' :: c :: _ => jsIsSpace c
  | _ => false

/-- The regex `^[a-z]+(?:\([^)]+\))?!:\s` (case-insensitive, applied to the
already-lowercased header). -/
def testBangHeader (cs : List Char) : Bool :=
  if cs.takeWhile isLowerAlpha = [] then false
  else
    match dropScope (cs.dropWhile isLowerAlpha) with
    | none => false
    | some r => bangColonSpace r

def featLit : List Char := "feat".data

def fixLit : List Char := "fix".data

/-- The regexes `^feat(?:\([^)]+\))?:\s` and `^fix(?:\([^)]+\))?:\s`
(case-insensitive, applied to the already-lowercased header), with the
type literal passed as `ty`. -/
def testTypeHeader (ty : List Char) (cs : List Char) : Bool :=
  if ty.isPrefixOf cs then
    match dropScope (cs.drop ty.length) with
    | none => false
    | some r => colonSpace r
  else false

def breakingLit : List Char := "breaking change".data

/-- Whether `\s*breaking changes?:?` matches starting here (the trailing
`s?` and `:?` are optional, so only the prefix `breaking change` after
leading whitespace is required). -/
def breakingHere (cs : List Char) : Bool :=
  breakingLit.isPrefixOf (cs.dropWhile jsIsSpace)

/-- The multiline anchor `^` matches after every line terminator. -/
def hasBreakingAfterBreak : List Char → Bool
  | [] => false
  | c :: rest =>
    ((c = '\n' || c = '\r') && breakingHere rest) || hasBreakingAfterBreak rest

/-- The regex `^\s*breaking changes?:?` with flags `mi`, applied to the
already-lowercased full text. -/
def testBreakingChangeInText (cs : List Char) : Bool :=
  breakingHere cs || hasBreakingAfterBreak cs

/-- `detectVersionIncrease` (src/index.ts:27): lowercase the text, take the
first line as header, and test the four patterns in precedence order. -/
def detectVersionIncrease (text : String) : Option String :=
  if testBangHeader (headerOf (toLowerChars text.data)) ||
      testBreakingChangeInText (toLowerChars text.data) then some "major"
  else if testTypeHeader featLit (headerOf (toLowerChars text.data)) then some "minor"
  else if testTypeHeader fixLit (headerOf (toLowerChars text.data)) then some "patch"
  else none

/-- `nextTag` (src/index.ts:48). -/
def nextTag (major minor patch : Nat) (versionToIncrease : String) : List Nat :=
  if versionToIncrease = "major" then [major + 1, 0, 0]
  else if versionToIncrease = "minor" then [major, minor + 1, 0]
  else [major, minor, patch + 1]

/-- `formatTagToString` (src/index.ts:58): the template literal
`${vPrefix ? "v" : ""}${major}.${minor}.${patch}` rendered as its list of
characters. -/
def formatTagToString (major minor patch : Nat) (vPref : Bool) : String :=
  String.mk ((if vPref then ['v'] else []) ++
    (natToDigits major ++ ('.' :: (natToDigits minor ++ ('.' :: natToDigits patch)))))

/-- The first disjunct of the classifier: the breaking-change header regex
matches the first line, or the multiline breaking-change regex matches the
text (both on the lowercased text). -/
def majorSignal (text : String) : Prop :=
  testBangHeader (headerOf (toLowerChars text.data)) = true ∨
  testBreakingChangeInText (toLowerChars text.data) = true

/-- The feat header regex matches the first line of the lowercased text. -/
def minorSignal (text : String) : Prop :=
  testTypeHeader featLit (headerOf (toLowerChars text.data)) = true

/-- The fix header regex matches the first line of the lowercased text. -/
def patchSignal (text : String) : Prop :=
  testTypeHeader fixLit (headerOf (toLowerChars text.data)) = true

/-- The observable effects of one invocation of the decision core of `run`:
whether `git.createRef` was called (and for which tag), whether
`core.setFailed` was called, and the `core.info` log lines, in order. -/
structure RunResult where
  createdRef : Option String
  failed : Option String
  info : List String
deriving DecidableEq, Repr

/-- Lines 139-144 of `run`: parse every fetched tag name, keep the
successes together with their names. -/
def parsedTags (tagNames : List String) : List (String × List Nat) :=
  tagNames.filterMap (fun n => (parseTagFromName n).map (fun p => (n, p)))

/-- Stable insertion of one element for the comparator
`(a, b) => compareTags(b.parsed, a.parsed)` of `parsed.sort` (an element is
placed before the head exactly when the comparator is negative). -/
def insertByCmp (x : String × List Nat) :
    List (String × List Nat) → List (String × List Nat)
  | [] => [x]
  | y :: ys => if compareTags y.2 x.2 < 0 then x :: y :: ys else y :: insertByCmp x ys

/-- `parsed.sort((a, b) => compareTags(b.parsed, a.parsed))`:
`Array.prototype.sort` with a consistent comparator produces the stable
sorted permutation, modelled here as stable insertion sort. -/
def sortTags : List (String × List Nat) → List (String × List Nat)
  | [] => []
  | x :: xs => insertByCmp x (sortTags xs)

/-- Lines 146-157 of `run`: the latest tag name and parsed triple, falling
back to the formatted `0.0.0` baseline when no tag name parsed. -/
def latestTag (tagNames : List String) (vPref : Bool) : String × List Nat :=
  match sortTags (parsedTags tagNames) with
  | [] => (formatTagToString 0 0 0 vPref, [0, 0, 0])
  | p :: _ => p

/-- Lines 159-162 of `run`: destructure the latest triple, increment it,
and format the next tag name. -/
def tagStringFor (tagNames : List String) (vPref : Bool)
    (versionToIncrease : String) : String :=
  let lp := (latestTag tagNames vPref).2
  let newTag := nextTag (lp.getD 0 0) (lp.getD 1 0) (lp.getD 2 0) versionToIncrease
  formatTagToString (newTag.getD 0 0) (newTag.getD 1 0) (newTag.getD 2 0) vPref

/-- Lines 146-200 of `run` once a bump kind has been detected: log the
latest and next tag, ask the host whether the ref exists, and either stop
(informational, no mutation) or create the ref.  `hostHasTag` abstracts
`octokit.rest.git.getRef` succeeding for the given formatted tag name. -/
def proceedCore (tagNames : List String) (vPref : Bool)
    (hostHasTag : String → Bool) (versionToIncrease : String) : RunResult :=
  let latestName := (latestTag tagNames vPref).1
  let tagAsString := tagStringFor tagNames vPref versionToIncrease
  let baselineLogs :=
    if parsedTags tagNames = [] then
      ["No valid tags found. Starting from 0.0.0 baseline."]
    else []
  let logs := baselineLogs ++ [s!"Latest tag: {latestName}, Next tag: {tagAsString}"]
  if hostHasTag tagAsString then
    { createdRef := none, failed := none,
      info := logs ++ [s!"Tag {tagAsString} already exists. Nothing to do."] }
  else
    { createdRef := some tagAsString, failed := none,
      info := logs ++ [s!"Tag {tagAsString} does not exist; can continue processing.",
                       s!"New tag created {tagAsString}"] }

/-- Lines 123-200 of `run`, as a pure function of the commit corpus, the
listed tag names, the `v_prefix` flag and the host state: classify the
messages joined with `","`, and either skip (terminal, non-error) or
proceed.  The PR-comment and release steps are external collaborator
actions that touch neither the tag ref nor the failure state (release
errors are caught and downgraded to warnings), so they are outside this
decision model. -/
def runCore (commitMessages tagNames : List String) (vPref : Bool)
    (hostHasTag : String → Bool) : RunResult :=
  match detectVersionIncrease (String.intercalate "," commitMessages) with
  | none =>
    { createdRef := none, failed := none,
      info := ["No matching keywords found for version update. Version update skipped"] }
  | some versionToIncrease => proceedCore tagNames vPref hostHasTag versionToIncrease

/-- The next-tag name `run` would compute for the given inputs, when a bump
kind is detected at all. -/
def plannedTag (commitMessages tagNames : List String) (vPref : Bool) :
    Option String :=
  (detectVersionIncrease (String.intercalate "," commitMessages)).map
    (tagStringFor tagNames vPref)

/-- A parse result always has exactly three components. -/
def IsTriple (v : List Nat) : Prop :=
  ∃ a b c : Nat, v = [a, b, c]

/-! ### Character and list lemmas -/

theorem not_space_of_digit {c : Char} (h : isDigitC c = true) :
    jsIsSpace c = false := by
  simp only [isDigitC, Bool.and_eq_true, decide_eq_true_eq] at h
  simp only [jsIsSpace, Bool.or_eq_false_iff, decide_eq_false_iff_not]
  omega

theorem dropWhile_of_all_false {p : Char → Bool} {l : List Char}
    (h : ∀ c ∈ l, p c = false) : l.dropWhile p = l := by
  cases l with
  | nil => rfl
  | cons c t =>
    rw [List.dropWhile_cons, h c (List.mem_cons_self c t)]
    simp

theorem jsTrim_eq_self {l : List Char} (h : ∀ c ∈ l, jsIsSpace c = false) :
    jsTrim l = l := by
  unfold jsTrim
  rw [dropWhile_of_all_false h,
    dropWhile_of_all_false (fun c hc => h c (List.mem_reverse.mp hc)),
    List.reverse_reverse]

theorem takeWhile_append_all {p : Char → Bool} :
    ∀ {l r : List Char}, (∀ c ∈ l, p c = true) →
      (∀ c, r.head? = some c → p c = false) → (l ++ r).takeWhile p = l := by
  intro l r hl hr
  induction l with
  | nil =>
    cases r with
    | nil => rfl
    | cons c t =>
      simp only [List.nil_append, List.takeWhile_cons, hr c rfl]
      simp
  | cons c t ih =>
    simp only [List.cons_append, List.takeWhile_cons,
      hl c (List.mem_cons_self c t)]
    simp only [if_true]
    rw [ih (fun x hx => hl x (List.mem_cons_of_mem c hx))]

theorem dropWhile_append_all {p : Char → Bool} :
    ∀ {l r : List Char}, (∀ c ∈ l, p c = true) →
      (∀ c, r.head? = some c → p c = false) → (l ++ r).dropWhile p = r := by
  intro l r hl hr
  induction l with
  | nil =>
    cases r with
    | nil => rfl
    | cons c t =>
      simp only [List.nil_append, List.dropWhile_cons, hr c rfl]
      simp
  | cons c t ih =>
    simp only [List.cons_append, List.dropWhile_cons,
      hl c (List.mem_cons_self c t)]
    simp only [if_true]
    exact ih (fun x hx => hl x (List.mem_cons_of_mem c hx))

theorem takeWhile_all {p : Char → Bool} {l : List Char}
    (h : ∀ c ∈ l, p c = true) : l.takeWhile p = l := by
  induction l with
  | nil => rfl
  | cons c t ih =>
    rw [List.takeWhile_cons, h c (List.mem_cons_self c t)]
    simp only [if_true]
    rw [ih (fun x hx => h x (List.mem_cons_of_mem c hx))]

theorem dropWhile_all {p : Char → Bool} {l : List Char}
    (h : ∀ c ∈ l, p c = true) : l.dropWhile p = [] := by
  induction l with
  | nil => rfl
  | cons c t ih =>
    rw [List.dropWhile_cons, h c (List.mem_cons_self c t)]
    simp only [if_true]
    exact ih (fun x hx => h x (List.mem_cons_of_mem c hx))

/-! ### Decimal digit lemmas -/

theorem toNat_digitChar {d : Nat} (h : d < 10) :
    (Char.ofNat (48 + d)).toNat = 48 + d := by
  interval_cases d <;> decide

theorem isDigitC_digitChar {d : Nat} (h : d < 10) :
    isDigitC (Char.ofNat (48 + d)) = true := by
  interval_cases d <;> decide

theorem decDigits_concat (l : List Char) (c : Char) :
    decDigits (l ++ [c]) = 10 * decDigits l + (c.toNat - 48) := by
  simp [decDigits, List.foldl_append]

theorem natToDigitsAux_acc (fuel : Nat) :
    ∀ (n : Nat) (acc : List Char),
      natToDigitsAux fuel n acc = natToDigitsAux fuel n [] ++ acc := by
  induction fuel with
  | zero => intro n acc; simp [natToDigitsAux]
  | succ fuel ih =>
    intro n acc
    by_cases h : n < 10
    · simp [natToDigitsAux, h]
    · simp only [natToDigitsAux, if_neg h]
      rw [ih (n / 10) (Char.ofNat (48 + n % 10) :: acc),
        ih (n / 10) [Char.ofNat (48 + n % 10)], List.append_assoc]
      rfl

theorem natToDigitsAux_digits (fuel : Nat) :
    ∀ (n : Nat), ∀ c ∈ natToDigitsAux fuel n [], isDigitC c = true := by
  induction fuel with
  | zero => intro n c hc; simp [natToDigitsAux] at hc
  | succ fuel ih =>
    intro n c hc
    by_cases h : n < 10
    · simp only [natToDigitsAux, if_pos h, List.mem_singleton] at hc
      subst hc
      exact isDigitC_digitChar h
    · simp only [natToDigitsAux, if_neg h] at hc
      rw [natToDigitsAux_acc] at hc
      rcases List.mem_append.mp hc with hc' | hc'
      · exact ih (n / 10) c hc'
      · rw [List.mem_singleton] at hc'
        subst hc'
        exact isDigitC_digitChar (Nat.mod_lt n (by omega))

theorem natToDigits_digits {n : Nat} {c : Char} (hc : c ∈ natToDigits n) :
    isDigitC c = true :=
  natToDigitsAux_digits (n + 1) n c hc

theorem natToDigits_ne_nil (n : Nat) : natToDigits n ≠ [] := by
  unfold natToDigits
  by_cases h : n < 10
  · simp [natToDigitsAux, h]
  · simp only [natToDigitsAux, if_neg h]
    rw [natToDigitsAux_acc]
    simp

theorem natToDigitsAux_dec (fuel : Nat) :
    ∀ (n : Nat), n < 10 ^ fuel → decDigits (natToDigitsAux fuel n []) = n := by
  induction fuel with
  | zero =>
    intro n h
    simp only [pow_zero, Nat.lt_one_iff] at h
    subst h
    rfl
  | succ fuel ih =>
    intro n h
    by_cases h10 : n < 10
    · simp only [natToDigitsAux, if_pos h10]
      have : decDigits [Char.ofNat (48 + n)] = (Char.ofNat (48 + n)).toNat - 48 := by
        simp [decDigits]
      rw [this, toNat_digitChar h10]
      omega
    · simp only [natToDigitsAux, if_neg h10]
      rw [natToDigitsAux_acc, decDigits_concat,
        ih (n / 10) (by
          rw [Nat.div_lt_iff_lt_mul (by omega)]
          calc n < 10 ^ (fuel + 1) := h
            _ = 10 ^ fuel * 10 := by rw [pow_succ]),
        toNat_digitChar (Nat.mod_lt n (by omega))]
      omega

theorem decDigits_natToDigits (n : Nat) : decDigits (natToDigits n) = n := by
  apply natToDigitsAux_dec (n + 1) n
  calc n < 10 ^ n := Nat.lt_pow_self (by omega) n
    _ ≤ 10 ^ (n + 1) := Nat.pow_le_pow_right (by omega) (Nat.le_succ n)

/-! ### Tag parsing lemmas -/

theorem expectDot_eq_some {l r : List Char} :
    expectDot l = some r ↔ l = '.' :: r := by
  cases l with
  | nil => simp [expectDot]
  | cons c t =>
    simp only [expectDot]
    by_cases hc : c = '.'
    · subst hc; simp
    · simp [hc]

theorem parseDigits_eq_some {cs : List Char} {n : Nat} {rest : List Char}
    (h : parseDigits cs = some (n, rest)) :
    cs.takeWhile isDigitC ≠ [] ∧ n = decDigits (cs.takeWhile isDigitC) ∧
      rest = cs.dropWhile isDigitC := by
  unfold parseDigits at h
  by_cases hne : cs.takeWhile isDigitC = []
  · rw [if_pos hne] at h
    exact absurd h (by simp)
  · rw [if_neg hne] at h
    injection h with h'
    injection h' with ha hb
    exact ⟨hne, ha.symm, hb.symm⟩

theorem parseDigits_append {d rest : List Char} (hne : d ≠ [])
    (hd : ∀ c ∈ d, isDigitC c = true)
    (hr : ∀ c, rest.head? = some c → isDigitC c = false) :
    parseDigits (d ++ rest) = some (decDigits d, rest) := by
  unfold parseDigits
  rw [takeWhile_append_all hd hr, dropWhile_append_all hd hr, if_neg hne]

theorem parseDigits_all {d : List Char} (hne : d ≠ [])
    (hd : ∀ c ∈ d, isDigitC c = true) :
    parseDigits d = some (decDigits d, []) := by
  unfold parseDigits
  rw [takeWhile_all hd, dropWhile_all hd, if_neg hne]

theorem expectDot_cons_dot (r : List Char) : expectDot ('.' :: r) = some r := by
  simp [expectDot]

theorem parseTagChars_of_shape {d1 d2 d3 : List Char}
    (h1 : d1 ≠ []) (h2 : d2 ≠ []) (h3 : d3 ≠ [])
    (g1 : ∀ c ∈ d1, isDigitC c = true) (g2 : ∀ c ∈ d2, isDigitC c = true)
    (g3 : ∀ c ∈ d3, isDigitC c = true) :
    parseTagChars (d1 ++ ('.' :: (d2 ++ ('.' :: d3)))) =
      some [decDigits d1, decDigits d2, decDigits d3] := by
  have hdot : ∀ (r : List Char) (c : Char),
      ('.' :: r).head? = some c → isDigitC c = false := by
    intro r c hc
    simp only [List.head?_cons, Option.some.injEq] at hc
    subst hc
    decide
  unfold parseTagChars
  simp only [parseDigits_append h1 g1 (hdot _), Option.some_bind,
    expectDot_cons_dot, parseDigits_append h2 g2 (hdot _),
    parseDigits_all h3 g3]
  simp

theorem parseTagChars_shape {cs : List Char} {v : List Nat}
    (h : parseTagChars cs = some v) :
    ∃ d1 d2 d3 : List Char, d1 ≠ [] ∧ d2 ≠ [] ∧ d3 ≠ [] ∧
      (∀ c ∈ d1, isDigitC c = true) ∧ (∀ c ∈ d2, isDigitC c = true) ∧
      (∀ c ∈ d3, isDigitC c = true) ∧
      cs = d1 ++ ('.' :: (d2 ++ ('.' :: d3))) ∧
      v = [decDigits d1, decDigits d2, decDigits d3] := by
  unfold parseTagChars at h
  rcases hb1 : parseDigits cs with _ | ⟨n1, r1⟩
  · rw [hb1, Option.none_bind] at h; exact absurd h (by simp)
  rw [hb1] at h
  simp only [Option.some_bind] at h
  rcases hb2 : expectDot r1 with _ | r2
  · rw [hb2, Option.none_bind] at h; exact absurd h (by simp)
  rw [hb2] at h
  simp only [Option.some_bind] at h
  rcases hb3 : parseDigits r2 with _ | ⟨n2, r3⟩
  · rw [hb3, Option.none_bind] at h; exact absurd h (by simp)
  rw [hb3] at h
  simp only [Option.some_bind] at h
  rcases hb4 : expectDot r3 with _ | r4
  · rw [hb4, Option.none_bind] at h; exact absurd h (by simp)
  rw [hb4] at h
  simp only [Option.some_bind] at h
  rcases hb5 : parseDigits r4 with _ | ⟨n3, r5⟩
  · rw [hb5, Option.none_bind] at h; exact absurd h (by simp)
  rw [hb5] at h
  simp only [Option.some_bind] at h
  by_cases hnil : r5 = []
  · rw [if_pos hnil] at h
    injection h with h'
    have e1 := parseDigits_eq_some hb1
    have e3 := parseDigits_eq_some hb3
    have e5 := parseDigits_eq_some hb5
    refine ⟨cs.takeWhile isDigitC, r2.takeWhile isDigitC, r4.takeWhile isDigitC,
      e1.1, e3.1, e5.1,
      fun c hc => List.mem_takeWhile_imp hc,
      fun c hc => List.mem_takeWhile_imp hc,
      fun c hc => List.mem_takeWhile_imp hc, ?_, ?_⟩
    · have hcs : cs = cs.takeWhile isDigitC ++ r1 := by
        rw [e1.2.2, List.takeWhile_append_dropWhile]
      have hr1 : r1 = '.' :: r2 := expectDot_eq_some.mp hb2
      have hr2 : r2 = r2.takeWhile isDigitC ++ r3 := by
        rw [e3.2.2, List.takeWhile_append_dropWhile]
      have hr3 : r3 = '.' :: r4 := expectDot_eq_some.mp hb4
      have hr4 : r4 = r4.takeWhile isDigitC ++ r5 := by
        rw [e5.2.2, List.takeWhile_append_dropWhile]
      conv_lhs => rw [hcs, hr1, hr2, hr3, hr4, hnil]
      rw [List.append_nil]
    · rw [← h', e1.2.1, e3.2.1, e5.2.1]
  · rw [if_neg hnil] at h
    exact absurd h (by simp)

theorem stripV_cons_of_digit {e : Char} (t : List Char)
    (he : isDigitC e = true) : stripV (e :: t) = e :: t := by
  have hev : e ≠ 'v' := by
    intro heq
    subst heq
    exact absurd he (by decide)
  simp [stripV, hev]

theorem stripV_of_digits {d1 rest : List Char} (h1 : d1 ≠ [])
    (g1 : ∀ c ∈ d1, isDigitC c = true) :
    stripV (d1 ++ rest) = d1 ++ rest := by
  cases d1 with
  | nil => exact absurd rfl h1
  | cons e t =>
    rw [List.cons_append,
      stripV_cons_of_digit (t ++ rest) (g1 e (List.mem_cons_self e t))]

theorem parseTagFromName_iff (s : String) (v : List Nat) :
    parseTagFromName s = some v ↔
      ∃ d1 d2 d3 : List Char, d1 ≠ [] ∧ d2 ≠ [] ∧ d3 ≠ [] ∧
        (∀ c ∈ d1, isDigitC c = true) ∧ (∀ c ∈ d2, isDigitC c = true) ∧
        (∀ c ∈ d3, isDigitC c = true) ∧
        (jsTrim s.data = d1 ++ ('.' :: (d2 ++ ('.' :: d3))) ∨
          jsTrim s.data = 'v' :: (d1 ++ ('.' :: (d2 ++ ('.' :: d3))))) ∧
        v = [decDigits d1, decDigits d2, decDigits d3] := by
  constructor
  · intro h
    unfold parseTagFromName at h
    rcases ht : jsTrim s.data with _ | ⟨c, t⟩
    · rw [ht] at h
      rw [show stripV [] = [] from rfl] at h
      rw [show parseTagChars [] = none from rfl] at h
      exact absurd h (by simp)
    · rw [ht] at h
      by_cases hc : c = 'v'
      · subst hc
        rw [show stripV ('v' :: t) = t from by simp [stripV]] at h
        obtain ⟨d1, d2, d3, h1, h2, h3, g1, g2, g3, hsh, hv⟩ :=
          parseTagChars_shape h
        exact ⟨d1, d2, d3, h1, h2, h3, g1, g2, g3, Or.inr (by rw [hsh]), hv⟩
      · rw [show stripV (c :: t) = c :: t from by simp [stripV, hc]] at h
        obtain ⟨d1, d2, d3, h1, h2, h3, g1, g2, g3, hsh, hv⟩ :=
          parseTagChars_shape h
        exact ⟨d1, d2, d3, h1, h2, h3, g1, g2, g3, Or.inl hsh, hv⟩
  · rintro ⟨d1, d2, d3, h1, h2, h3, g1, g2, g3, hsh | hsh, hv⟩
    · unfold parseTagFromName
      rw [hsh, stripV_of_digits h1 g1,
        parseTagChars_of_shape h1 h2 h3 g1 g2 g3, hv]
    · unfold parseTagFromName
      rw [hsh, show stripV ('v' :: (d1 ++ ('.' :: (d2 ++ ('.' :: d3))))) =
          d1 ++ ('.' :: (d2 ++ ('.' :: d3))) from by simp [stripV],
        parseTagChars_of_shape h1 h2 h3 g1 g2 g3, hv]

theorem parseTagFromName_triple {s : String} {v : List Nat}
    (h : parseTagFromName s = some v) : IsTriple v := by
  obtain ⟨d1, d2, d3, _, _, _, _, _, _, _, hv⟩ :=
    (parseTagFromName_iff s v).mp h
  exact ⟨decDigits d1, decDigits d2, decDigits d3, hv⟩

/-! ### Formatting lemmas -/

theorem format_data (a b c : Nat) (p : Bool) :
    (formatTagToString a b c p).data =
      (if p then ['v'] else []) ++
        (natToDigits a ++ ('.' :: (natToDigits b ++ ('.' :: natToDigits c)))) := rfl

theorem format_no_space (a b c : Nat) (p : Bool) :
    ∀ ch ∈ (formatTagToString a b c p).data, jsIsSpace ch = false := by
  intro ch hch
  rw [format_data] at hch
  rcases List.mem_append.mp hch with hv | hrest
  · cases p with
    | false => simp at hv
    | true =>
      simp only [if_true, List.mem_singleton] at hv
      subst hv
      decide
  · rcases List.mem_append.mp hrest with hd | hdot
    · exact not_space_of_digit (natToDigits_digits hd)
    · rcases List.mem_cons.mp hdot with rfl | hdot'
      · decide
      · rcases List.mem_append.mp hdot' with hd | hdot''
        · exact not_space_of_digit (natToDigits_digits hd)
        · rcases List.mem_cons.mp hdot'' with rfl | hd
          · decide
          · exact not_space_of_digit (natToDigits_digits hd)

/-! ### Comparison lemmas -/

theorem compareTags_refl (l : List Nat) : compareTags l l = 0 := by
  unfold compareTags jsCompareAt
  cases l[0]?
  all_goals cases l[1]?
  all_goals cases l[2]?
  all_goals simp

theorem jsCompareAt_swap (v o : Option Nat) :
    jsCompareAt o v = (jsCompareAt v o).map (fun r => -r) := by
  cases v with
  | none => cases o <;> simp [jsCompareAt]
  | some a =>
    cases o with
    | none => simp [jsCompareAt]
    | some b =>
      simp only [jsCompareAt]
      split_ifs <;> simp_all <;> omega

theorem compareTags_swap (l r : List Nat) :
    compareTags r l = -compareTags l r := by
  unfold compareTags
  rw [jsCompareAt_swap l[0]? r[0]?, jsCompareAt_swap l[1]? r[1]?,
    jsCompareAt_swap l[2]? r[2]?]
  cases jsCompareAt l[0]? r[0]? with
  | some x => simp
  | none =>
    simp only [Option.map_none']
    cases jsCompareAt l[1]? r[1]? with
    | some x => simp
    | none =>
      simp only [Option.map_none']
      cases jsCompareAt l[2]? r[2]? with
      | some x => simp
      | none => simp

theorem compareTags_triple (a1 a2 a3 b1 b2 b3 : Nat) :
    compareTags [a1, a2, a3] [b1, b2, b3] =
      if a1 > b1 then 1 else if a1 < b1 then -1
      else if a2 > b2 then 1 else if a2 < b2 then -1
      else if a3 > b3 then 1 else if a3 < b3 then -1 else 0 := by
  unfold compareTags jsCompareAt
  simp only [List.getElem?_cons_zero, List.getElem?_cons_succ]
  split_ifs <;> simp_all

theorem compareTags_nonneg_iff (a1 a2 a3 b1 b2 b3 : Nat) :
    0 ≤ compareTags [a1, a2, a3] [b1, b2, b3] ↔
      b1 < a1 ∨ (a1 = b1 ∧ (b2 < a2 ∨ (a2 = b2 ∧ b3 ≤ a3))) := by
  rw [compareTags_triple]
  split_ifs <;> omega

theorem compareTags_eq_zero_iff (a1 a2 a3 b1 b2 b3 : Nat) :
    compareTags [a1, a2, a3] [b1, b2, b3] = 0 ↔
      a1 = b1 ∧ a2 = b2 ∧ a3 = b3 := by
  rw [compareTags_triple]
  split_ifs <;> norm_num <;> omega

theorem compareTags_eq_one_iff (a1 a2 a3 b1 b2 b3 : Nat) :
    compareTags [a1, a2, a3] [b1, b2, b3] = 1 ↔
      b1 < a1 ∨ (a1 = b1 ∧ (b2 < a2 ∨ (a2 = b2 ∧ b3 < a3))) := by
  rw [compareTags_triple]
  split_ifs <;> norm_num <;> omega

theorem compareTags_trans_one {x y z : List Nat} (hx : IsTriple x)
    (hy : IsTriple y) (hz : IsTriple z) (h1 : compareTags x y = 1)
    (h2 : compareTags y z = 1) : compareTags x z = 1 := by
  obtain ⟨a1, a2, a3, rfl⟩ := hx
  obtain ⟨b1, b2, b3, rfl⟩ := hy
  obtain ⟨c1, c2, c3, rfl⟩ := hz
  rw [compareTags_eq_one_iff] at h1 h2 ⊢
  omega

theorem compareTags_trans_nonneg {x y z : List Nat} (hx : IsTriple x)
    (hy : IsTriple y) (hz : IsTriple z) (h1 : 0 ≤ compareTags x y)
    (h2 : 0 ≤ compareTags y z) : 0 ≤ compareTags x z := by
  obtain ⟨a1, a2, a3, rfl⟩ := hx
  obtain ⟨b1, b2, b3, rfl⟩ := hy
  obtain ⟨c1, c2, c3, rfl⟩ := hz
  rw [compareTags_nonneg_iff] at h1 h2 ⊢
  omega

/-! ### Sorting and selection lemmas -/

theorem mem_insertByCmp {a x : String × List Nat} :
    ∀ {s : List (String × List Nat)},
      a ∈ insertByCmp x s ↔ a = x ∨ a ∈ s := by
  intro s
  induction s with
  | nil => simp [insertByCmp]
  | cons y ys ih =>
    simp only [insertByCmp]
    split_ifs with h
    · simp only [List.mem_cons]
    · simp only [List.mem_cons, ih]
      tauto

theorem mem_sortTags {a : String × List Nat} :
    ∀ {l : List (String × List Nat)}, a ∈ sortTags l ↔ a ∈ l := by
  intro l
  induction l with
  | nil => simp [sortTags]
  | cons x xs ih =>
    simp only [sortTags, mem_insertByCmp, ih, List.mem_cons]

theorem insertByCmp_ne_nil (x : String × List Nat)
    (s : List (String × List Nat)) : insertByCmp x s ≠ [] := by
  cases s with
  | nil => simp [insertByCmp]
  | cons y ys =>
    simp only [insertByCmp]
    split_ifs <;> simp

theorem sortTags_ne_nil {l : List (String × List Nat)} (h : l ≠ []) :
    sortTags l ≠ [] := by
  cases l with
  | nil => exact absurd rfl h
  | cons x xs =>
    simp only [sortTags]
    exact insertByCmp_ne_nil x (sortTags xs)

theorem pairwise_insertByCmp {x : String × List Nat}
    {s : List (String × List Nat)} (hx : IsTriple x.2)
    (hs : ∀ y ∈ s, IsTriple y.2)
    (hp : s.Pairwise (fun u w => 0 ≤ compareTags u.2 w.2)) :
    (insertByCmp x s).Pairwise (fun u w => 0 ≤ compareTags u.2 w.2) := by
  induction s with
  | nil => simp [insertByCmp]
  | cons y ys ih =>
    rw [List.pairwise_cons] at hp
    obtain ⟨hy, hys⟩ := hp
    have hyt : IsTriple y.2 := hs y (List.mem_cons_self y ys)
    simp only [insertByCmp]
    split_ifs with h
    · rw [List.pairwise_cons]
      have hxy : 0 ≤ compareTags x.2 y.2 := by
        have hsw := compareTags_swap y.2 x.2
        omega
      refine ⟨?_, List.pairwise_cons.mpr ⟨hy, hys⟩⟩
      intro w hw
      rcases List.mem_cons.mp hw with rfl | hw'
      · exact hxy
      · exact compareTags_trans_nonneg hx hyt
          (hs w (List.mem_cons_of_mem y hw')) hxy (hy w hw')
    · rw [List.pairwise_cons]
      refine ⟨?_, ih (fun z hz => hs z (List.mem_cons_of_mem y hz)) hys⟩
      intro w hw
      rcases mem_insertByCmp.mp hw with rfl | hw'
      · omega
      · exact hy w hw'

theorem pairwise_sortTags {l : List (String × List Nat)}
    (hl : ∀ y ∈ l, IsTriple y.2) :
    (sortTags l).Pairwise (fun u w => 0 ≤ compareTags u.2 w.2) := by
  induction l with
  | nil => simp [sortTags]
  | cons x xs ih =>
    simp only [sortTags]
    exact pairwise_insertByCmp (hl x (List.mem_cons_self x xs))
      (fun y hy => hl y (List.mem_cons_of_mem x (mem_sortTags.mp hy)))
      (ih (fun y hy => hl y (List.mem_cons_of_mem x hy)))

theorem parsedTags_triple {tagNames : List String} :
    ∀ y ∈ parsedTags tagNames, IsTriple y.2 := by
  intro y hy
  unfold parsedTags at hy
  rw [List.mem_filterMap] at hy
  obtain ⟨n, _, hmap⟩ := hy
  rw [Option.map_eq_some'] at hmap
  obtain ⟨v, hparse, hv⟩ := hmap
  have := parseTagFromName_triple hparse
  rw [← hv]
  exact this

theorem latestTag_max {tagNames : List String} (vPref : Bool)
    (h : parsedTags tagNames ≠ []) :
    latestTag tagNames vPref ∈ parsedTags tagNames ∧
      ∀ q ∈ parsedTags tagNames,
        0 ≤ compareTags (latestTag tagNames vPref).2 q.2 := by
  have hs := sortTags_ne_nil h
  rcases hsort : sortTags (parsedTags tagNames) with _ | ⟨p, rest⟩
  · exact absurd hsort hs
  have hlt : latestTag tagNames vPref = p := by
    unfold latestTag
    rw [hsort]
  have hpw := pairwise_sortTags (l := parsedTags tagNames) parsedTags_triple
  rw [hsort, List.pairwise_cons] at hpw
  constructor
  · rw [hlt]
    exact mem_sortTags.mp (hsort ▸ List.mem_cons_self p rest)
  · intro q hq
    have hq' : q ∈ p :: rest := hsort ▸ mem_sortTags.mpr hq
    rcases List.mem_cons.mp hq' with rfl | hq''
    · rw [hlt, compareTags_refl]
    · rw [hlt]
      exact hpw.1 q hq''


/-! ### Claim theorems -/

/-- C1.  `detectVersionIncrease` applies strict precedence, first match
wins: "major" exactly when the breaking-change header pattern matches the
first line or the breaking-change body pattern matches some line; else
"minor" exactly when the feat header pattern matches; else "patch" exactly
when the fix header pattern matches; else none.  The listed concrete
inputs classify as the claim states. -/
theorem claim_c1_classifier_precedence :
    (∀ text : String,
      (detectVersionIncrease text = some "major" ↔ majorSignal text) ∧
      (detectVersionIncrease text = some "minor" ↔
        ¬ majorSignal text ∧ minorSignal text) ∧
      (detectVersionIncrease text = some "patch" ↔
        ¬ majorSignal text ∧ ¬ minorSignal text ∧ patchSignal text) ∧
      (detectVersionIncrease text = none ↔
        ¬ majorSignal text ∧ ¬ minorSignal text ∧ ¬ patchSignal text)) ∧
    detectVersionIncrease "feat!: x" = some "major" ∧
    detectVersionIncrease "feat(scope)!: x" = some "major" ∧
    detectVersionIncrease "feat: x\nBreaking changes: y" = some "major" ∧
    detectVersionIncrease "feat: x" = some "minor" ∧
    detectVersionIncrease "fix(scope): x" = some "patch" ∧
    detectVersionIncrease "docs: x" = none ∧
    detectVersionIncrease "feat something" = none := by
  refine ⟨?_, by decide, by decide, by decide, by decide, by decide,
    by decide, by decide⟩
  intro text
  unfold detectVersionIncrease majorSignal minorSignal patchSignal
  cases hbang : testBangHeader (headerOf (toLowerChars text.data)) <;>
    cases hbrk : testBreakingChangeInText (toLowerChars text.data) <;>
    cases hfeat : testTypeHeader featLit (headerOf (toLowerChars text.data)) <;>
    cases hfix : testTypeHeader fixLit (headerOf (toLowerChars text.data)) <;>
    simp

/-- C2 counterexample (the claim is wrong about the code): the corpus
["docs: x", "feat!: y"] has a unit whose header matches the bang pattern,
but `run` joins the messages with "," so the joined text classifies as
none, not "major", and no tag is created. -/
theorem claim_c2_joined_corpus_counterexample :
    detectVersionIncrease "feat!: y" = some "major" ∧
    testBangHeader (headerOf (toLowerChars "feat!: y".data)) = true ∧
    String.intercalate "," ["docs: x", "feat!: y"] = "docs: x,feat!: y" ∧
    detectVersionIncrease (String.intercalate "," ["docs: x", "feat!: y"]) = none ∧
    (runCore ["docs: x", "feat!: y"] ["v1.2.3"] true (fun _ => false)).createdRef
      = none := by
  refine ⟨by decide, by decide, by decide, by decide, by decide⟩

/-- C3.  When the classifier returns none on the joined corpus, `run`
produces the terminal skip: it logs that the version update is skipped,
creates no tag ref, and does not set a failure. -/
theorem claim_c3_none_is_terminal_skip (commitMessages tagNames : List String)
    (vPref : Bool) (hostHasTag : String → Bool)
    (h : detectVersionIncrease (String.intercalate "," commitMessages) = none) :
    runCore commitMessages tagNames vPref hostHasTag =
      { createdRef := none, failed := none,
        info := ["No matching keywords found for version update. Version update skipped"] } := by
  unfold runCore
  rw [h]

/-- Witness for C3 at the corpus ["chore: refactor code"]: the classifier
returns none (it does not default to "patch") and the engine skips. -/
theorem claim_c3_witness :
    detectVersionIncrease (String.intercalate "," ["chore: refactor code"]) = none ∧
    runCore ["chore: refactor code"] ["v1.2.3"] true (fun _ => false) =
      { createdRef := none, failed := none,
        info := ["No matching keywords found for version update. Version update skipped"] } :=
  ⟨by decide, claim_c3_none_is_terminal_skip ["chore: refactor code"] ["v1.2.3"]
    true (fun _ => false) (by decide)⟩

/-- C4.  If no tag name parses, the engine does not fail: the baseline is
(0,0,0) formatted with the prefix flag, and with corpus
["fix: first patch"] it proceeds to create the formatted 0.0.1 tag. -/
theorem claim_c4_zero_baseline (tagNames : List String) (vPref : Bool)
    (h : ∀ n ∈ tagNames, parseTagFromName n = none) :
    latestTag tagNames vPref = (formatTagToString 0 0 0 vPref, [0, 0, 0]) ∧
    (runCore ["fix: first patch"] tagNames vPref (fun _ => false)).failed = none ∧
    (runCore ["fix: first patch"] tagNames vPref (fun _ => false)).createdRef =
      some (formatTagToString 0 0 1 vPref) := by
  have hempty : parsedTags tagNames = [] := by
    unfold parsedTags
    rw [List.filterMap_eq_nil_iff]
    intro n hn
    rw [h n hn]
    rfl
  have hlatest : latestTag tagNames vPref =
      (formatTagToString 0 0 0 vPref, [0, 0, 0]) := by
    unfold latestTag
    rw [hempty]
    rfl
  have hdet : detectVersionIncrease
      (String.intercalate "," ["fix: first patch"]) = some "patch" := by decide
  have hrun : runCore ["fix: first patch"] tagNames vPref (fun _ => false) =
      proceedCore tagNames vPref (fun _ => false) "patch" := by
    unfold runCore
    rw [hdet]
  have htagstr : tagStringFor tagNames vPref "patch" =
      formatTagToString 0 0 1 vPref := by
    unfold tagStringFor
    rw [hlatest]
    rfl
  refine ⟨hlatest, ?_, ?_⟩
  · rw [hrun]
    rfl
  · rw [hrun]
    show some (tagStringFor tagNames vPref "patch") =
      some (formatTagToString 0 0 1 vPref)
    rw [htagstr]

/-- Witness for C4 with no existing tags, prefix on: the engine creates
v0.0.1 from the zero baseline. -/
theorem claim_c4_witness :
    (∀ n ∈ ([] : List String), parseTagFromName n = none) ∧
    latestTag [] true = (formatTagToString 0 0 0 true, [0, 0, 0]) ∧
    (runCore ["fix: first patch"] [] true (fun _ => false)).failed = none ∧
    (runCore ["fix: first patch"] [] true (fun _ => false)).createdRef =
      some "v0.0.1" := by
  have h := claim_c4_zero_baseline [] true (by simp)
  refine ⟨by simp, h.1, h.2.1, ?_⟩
  rw [h.2.2]
  decide

/-- C5.  If the host already has a ref for the formatted next-tag name,
the outcome is an informational no-op: no tag ref is created, no failure
is set, and the "already exists" message is logged. -/
theorem claim_c5_existing_tag_noop (commitMessages tagNames : List String)
    (vPref : Bool) (hostHasTag : String → Bool) (t : String)
    (hplan : plannedTag commitMessages tagNames vPref = some t)
    (hhost : hostHasTag t = true) :
    (runCore commitMessages tagNames vPref hostHasTag).createdRef = none ∧
    (runCore commitMessages tagNames vPref hostHasTag).failed = none ∧
    s!"Tag {t} already exists. Nothing to do." ∈
      (runCore commitMessages tagNames vPref hostHasTag).info := by
  unfold plannedTag at hplan
  rcases hdet : detectVersionIncrease (String.intercalate "," commitMessages)
    with _ | v
  · rw [hdet] at hplan
    exact absurd hplan (by simp)
  · rw [hdet, Option.map_some'] at hplan
    injection hplan with hplan'
    unfold runCore
    rw [hdet]
    unfold proceedCore
    simp only [hplan', hhost]
    simp

/-- Witness for C5: with corpus ["fix: bug"], tag list ["v1.2.3"] and a
host that already has v1.2.4, the engine creates nothing and reports the
informational message. -/
theorem claim_c5_witness :
    plannedTag ["fix: bug"] ["v1.2.3"] true = some "v1.2.4" ∧
    (fun s => s == "v1.2.4") "v1.2.4" = true ∧
    (runCore ["fix: bug"] ["v1.2.3"] true (fun s => s == "v1.2.4")).createdRef
      = none ∧
    (runCore ["fix: bug"] ["v1.2.3"] true (fun s => s == "v1.2.4")).failed
      = none ∧
    "Tag v1.2.4 already exists. Nothing to do." ∈
      (runCore ["fix: bug"] ["v1.2.3"] true (fun s => s == "v1.2.4")).info := by
  have h := claim_c5_existing_tag_noop ["fix: bug"] ["v1.2.3"] true
    (fun s => s == "v1.2.4") "v1.2.4" (by decide) (by decide)
  exact ⟨by decide, by decide, h.1, h.2.1, h.2.2⟩

/-- C6.  Round trip: parsing the formatted tag string recovers the triple,
for every triple and both prefix flags. -/
theorem claim_c6_round_trip :
    ∀ (a b c : Nat) (p : Bool),
      parseTagFromName (formatTagToString a b c p) = some [a, b, c] := by
  intro a b c p
  have hshape : jsTrim (formatTagToString a b c p).data =
      natToDigits a ++ ('.' :: (natToDigits b ++ ('.' :: natToDigits c))) ∨
      jsTrim (formatTagToString a b c p).data =
        'v' :: (natToDigits a ++ ('.' :: (natToDigits b ++ ('.' :: natToDigits c)))) := by
    rw [jsTrim_eq_self (format_no_space a b c p), format_data]
    cases p
    · left
      simp
    · right
      simp
  have h := (parseTagFromName_iff (formatTagToString a b c p)
      [decDigits (natToDigits a), decDigits (natToDigits b),
        decDigits (natToDigits c)]).mpr
    ⟨natToDigits a, natToDigits b, natToDigits c,
      natToDigits_ne_nil a, natToDigits_ne_nil b, natToDigits_ne_nil c,
      fun ch hch => natToDigits_digits hch,
      fun ch hch => natToDigits_digits hch,
      fun ch hch => natToDigits_digits hch, hshape, rfl⟩
  rw [h, decDigits_natToDigits, decDigits_natToDigits, decDigits_natToDigits]

/-- C7.  `parseTagFromName` accepts, after trimming, exactly an optional
leading v followed by three dot-separated digit runs and nothing else,
returning their values; the four listed deviations return none. -/
theorem claim_c7_parse_grammar :
    (∀ (s : String) (v : List Nat),
      parseTagFromName s = some v ↔
        ∃ d1 d2 d3 : List Char, d1 ≠ [] ∧ d2 ≠ [] ∧ d3 ≠ [] ∧
          (∀ c ∈ d1, isDigitC c = true) ∧ (∀ c ∈ d2, isDigitC c = true) ∧
          (∀ c ∈ d3, isDigitC c = true) ∧
          (jsTrim s.data = d1 ++ ('.' :: (d2 ++ ('.' :: d3))) ∨
            jsTrim s.data = 'v' :: (d1 ++ ('.' :: (d2 ++ ('.' :: d3))))) ∧
          v = [decDigits d1, decDigits d2, decDigits d3]) ∧
    parseTagFromName "something" = none ∧
    parseTagFromName "v1.2" = none ∧
    parseTagFromName "1.2" = none ∧
    parseTagFromName "v1.2.3-beta" = none :=
  ⟨fun s v => parseTagFromName_iff s v, by decide, by decide, by decide,
    by decide⟩

/-- C8.  `compareTags` is the short-circuiting lexicographic comparison on
triples, zero exactly on equal triples, reflexive and transitive, and the
baseline the engine selects by sorting descending and taking index 0 is a
parsed tag that is maximal under this order. -/
theorem claim_c8_order_and_selection (tagNames : List String) (vPref : Bool)
    (h : parsedTags tagNames ≠ []) :
    (∀ a1 a2 a3 b1 b2 b3 : Nat,
      compareTags [a1, a2, a3] [b1, b2, b3] =
        if a1 > b1 then 1 else if a1 < b1 then -1
        else if a2 > b2 then 1 else if a2 < b2 then -1
        else if a3 > b3 then 1 else if a3 < b3 then -1 else 0) ∧
    (∀ a1 a2 a3 b1 b2 b3 : Nat,
      compareTags [a1, a2, a3] [b1, b2, b3] = 0 ↔
        a1 = b1 ∧ a2 = b2 ∧ a3 = b3) ∧
    (∀ l : List Nat, compareTags l l = 0) ∧
    (∀ x y z : List Nat, IsTriple x → IsTriple y → IsTriple z →
      compareTags x y = 1 → compareTags y z = 1 → compareTags x z = 1) ∧
    (latestTag tagNames vPref ∈ parsedTags tagNames ∧
      ∀ q ∈ parsedTags tagNames,
        0 ≤ compareTags (latestTag tagNames vPref).2 q.2) :=
  ⟨compareTags_triple, compareTags_eq_zero_iff, compareTags_refl,
    fun _ _ _ hx hy hz => compareTags_trans_one hx hy hz,
    latestTag_max vPref h⟩

/-- Witness for C8 at the tag list ["v1.2.3", "v1.2.2"]: the selected
baseline is a member of the parsed list and dominates every parsed tag. -/
theorem claim_c8_witness :
    parsedTags ["v1.2.3", "v1.2.2"] ≠ [] ∧
    (latestTag ["v1.2.3", "v1.2.2"] true ∈ parsedTags ["v1.2.3", "v1.2.2"] ∧
      ∀ q ∈ parsedTags ["v1.2.3", "v1.2.2"],
        0 ≤ compareTags (latestTag ["v1.2.3", "v1.2.2"] true).2 q.2) :=
  ⟨by decide,
    (claim_c8_order_and_selection ["v1.2.3", "v1.2.2"] true (by decide)).2.2.2.2⟩

/-- C9.  `nextTag` raises the requested component and zeroes all lower
components, for every triple. -/
theorem claim_c9_increment :
    ∀ major minor patch : Nat,
      nextTag major minor patch "major" = [major + 1, 0, 0] ∧
      nextTag major minor patch "minor" = [major, minor + 1, 0] ∧
      nextTag major minor patch "patch" = [major, minor, patch + 1] := by
  intro major minor patch
  refine ⟨?_, ?_, ?_⟩
  · unfold nextTag
    rw [if_pos rfl]
  · unfold nextTag
    rw [if_neg (by decide), if_pos rfl]
  · unfold nextTag
    rw [if_neg (by decide), if_neg (by decide)]

/-- C10.  `parseTagFromName` accepts numeric segments with leading zeros,
so distinct accepted names can denote the same version, and formatting a
parse result need not reproduce the original name. -/
theorem claim_c10_leading_zeros :
    parseTagFromName "v01.02.003" = some [1, 2, 3] ∧
    parseTagFromName "v1.2.3" = some [1, 2, 3] ∧
    "v01.02.003" ≠ "v1.2.3" ∧
    formatTagToString 1 2 3 true = "v1.2.3" ∧
    formatTagToString 1 2 3 true ≠ "v01.02.003" ∧
    formatTagToString 1 2 3 false ≠ "v01.02.003" := by
  refine ⟨by decide, by decide, by decide, by decide, by decide, by decide⟩

end ReleaseTag
